import Mathlib

/-
Verification of the Needleman–Wunsch global-alignment engine
(`src/main.cpp`): the scoring schema, the DP matrix builder, the fill
recurrence, the traceback reconstructor and the score recomputation.

The C++ code is embedded shallowly:
* `std::string` becomes `List Char`; machine `int` scores become `Int`
  (the algorithm is pure integer arithmetic; no wrap-around is relied on).
* the row-major in-place fill of the matrix becomes the structurally
  recursive cell function `matval` (row `i+1` is computed from row `i`,
  and within a row each cell from its left neighbour, exactly as the
  nested `for` loops do; every cell is written once from already-final
  cells, so the functional recurrence and the imperative fill agree).
* the traceback `while` loop becomes `tracebackLoop`, fuelled, returning
  `none` when the fuel runs out or when no branch of the `if`/`else if`
  chain fires (in C++ that state would loop forever; it is proved
  unreachable below).  `push_back` onto an accumulator followed by a
  final `std::reverse` is modelled by consing onto the accumulator,
  which directly builds the final, forward-order string.
-/

set_option maxRecDepth 8000

namespace NW

/-- Scoring schema (struct `Scoring`); the C++ field `match` is a Lean
keyword, so it is called `matchScore` here. -/
structure Scoring where
  matchScore : Int
  mismatch : Int
  gap : Int
deriving DecidableEq

/-- `default_scoring()` from the source: match 1, mismatch -1, gap 0. -/
def default_scoring : Scoring := ⟨1, -1, 0⟩

/-- The `Alignment` struct: the two aligned strings and the score matrix
(field `score` in the C++). -/
structure Alignment where
  seq1 : List Char
  seq2 : List Char
  score : List (List Int)
deriving DecidableEq

/-- Body of `Alignment::calc_score`: walk the positions of `seq1`,
reading the same position of `seq2` (out-of-range reads, impossible for
the alignments the program builds, are modelled as a default blank). -/
def calcGo (scr : Scoring) : List Char → List Char → Int
  | [], _ => 0
  | c1 :: t1, l2 =>
      (if c1 = l2.headD ' ' then scr.matchScore
       else if c1 = '-' ∨ l2.headD ' ' = '-' then scr.gap
       else scr.mismatch) + calcGo scr t1 l2.tail

/-- `Alignment::calc_score`: recomputes the score from the two aligned
strings only; the matrix field is never consulted. -/
def calc_score (al : Alignment) (scr : Scoring) : Int :=
  calcGo scr al.seq1 al.seq2

/-- Cumulative gap penalty: `gapInit scr k = k * scr.gap`, built by the
same repeated addition as the boundary loops of
`generateAlignmentMatrix`. -/
def gapInit (scr : Scoring) : Nat → Int
  | 0 => 0
  | k + 1 => gapInit scr k + scr.gap

/-- `generateAlignmentMatrix`: an `(m+1) × (n+1)` matrix, zero
everywhere except column 0 and row 0 which hold cumulative gap
penalties. -/
def generateAlignmentMatrix (m n : Nat) (scr : Scoring) : List (List Int) :=
  (List.range (m + 1)).map fun i =>
    (List.range (n + 1)).map fun j =>
      if j = 0 then gapInit scr i
      else if i = 0 then gapInit scr j
      else 0

/-- The substitution score `seq1[i-1] == seq2[j-1] ? match : mismatch`. -/
def subScore (scr : Scoring) (a b : Char) : Int :=
  if a = b then scr.matchScore else scr.mismatch

/-- One row of the filled DP matrix, computed from the previous row
`prev` and the row's character `ci` of `seq1`.  Cell `j+1` is
`max(match, max(del, ins))` with `match = prev[j] + subScore`,
`del = prev[j+1] + gap`, `ins = (this row)[j] + gap`, exactly the fill
loop of `alignment_algorithm`; cell 0 keeps the boundary value
`prev[0] + gap` that `generateAlignmentMatrix` put there. -/
def matvalRow (s2 : List Char) (scr : Scoring) (prev : Nat → Int) (ci : Char) : Nat → Int
  | 0 => prev 0 + scr.gap
  | j + 1 =>
      max (prev j + subScore scr ci (s2.getD j ' '))
        (max (prev (j + 1) + scr.gap) (matvalRow s2 scr prev ci j + scr.gap))

/-- Cell `(i, j)` of the DP matrix after `alignment_algorithm`'s fill
loop has run over the matrix produced by `generateAlignmentMatrix`. -/
def matval (s1 s2 : List Char) (scr : Scoring) : Nat → Nat → Int
  | 0 => gapInit scr
  | i + 1 => matvalRow s2 scr (matval s1 s2 scr i) (s1.getD i ' ')

/-- The filled matrix as the list-of-lists value stored in the
`Alignment` result. -/
def fillMatrix (s1 s2 : List Char) (scr : Scoring) : List (List Int) :=
  (List.range (s1.length + 1)).map fun i =>
    (List.range (s2.length + 1)).map fun j => matval s1 s2 scr i j

/-- State of the traceback: the two accumulated strings and the cursor. -/
structure TbState where
  al1 : List Char
  al2 : List Char
  i : Nat
  j : Nat
deriving DecidableEq

/-- The traceback `while (i > 0 && j > 0)` loop.  The cursor `(i+1, j+1)`
is the C++ `(i, j)`; `diag`, `up`, `left` name the same matrix reads as
the C++ locals (`up` reads `mat[i][j-1]`, `left` reads `mat[i-1][j]`).
Consing onto the accumulators models `push_back` plus the final
`std::reverse`.  `none` models the two behaviours a C++ execution could
only exhibit by looping forever: running out of fuel, and the state in
which no branch of the `if`/`else if` chain fires (both are proved
unreachable). -/
def tracebackLoop (s1 s2 : List Char) (scr : Scoring) :
    Nat → Nat → Nat → List Char → List Char → Option TbState
  | _, 0, j, a1, a2 => some ⟨a1, a2, 0, j⟩
  | _, i + 1, 0, a1, a2 => some ⟨a1, a2, i + 1, 0⟩
  | 0, _ + 1, _ + 1, _, _ => none
  | fuel + 1, i + 1, j + 1, a1, a2 =>
      let diag := matval s1 s2 scr i j
      let up := matval s1 s2 scr (i + 1) j
      let left := matval s1 s2 scr i (j + 1)
      if s1.getD i ' ' = s2.getD j ' ' ∨ (diag ≥ up ∧ diag ≥ left) then
        tracebackLoop s1 s2 scr fuel i j (s1.getD i ' ' :: a1) (s2.getD j ' ' :: a2)
      else if left ≥ up ∧ left ≥ diag then
        tracebackLoop s1 s2 scr fuel i (j + 1) (s1.getD i ' ' :: a1) ('-' :: a2)
      else if up ≥ left ∧ up ≥ diag then
        tracebackLoop s1 s2 scr fuel (i + 1) j ('-' :: a1) (s2.getD j ' ' :: a2)
      else none

/-- The `while (i > 0)` drain: copy the remaining prefix of `seq1`
against gaps. -/
def drainLoop1 (s1 : List Char) : Nat → List Char → List Char → List Char × List Char
  | 0, a1, a2 => (a1, a2)
  | i + 1, a1, a2 => drainLoop1 s1 i (s1.getD i ' ' :: a1) ('-' :: a2)

/-- The `while (j > 0)` drain: copy the remaining prefix of `seq2`
against gaps. -/
def drainLoop2 (s2 : List Char) : Nat → List Char → List Char → List Char × List Char
  | 0, a1, a2 => (a1, a2)
  | j + 1, a1, a2 => drainLoop2 s2 j ('-' :: a1) (s2.getD j ' ' :: a2)

/-- `alignment_algorithm`: fill the matrix, run the traceback from
`(m, n)` (fuel `m + n` covers every iteration, each of which decreases
`i + j`), drain the leftover prefixes, and package the result. -/
def alignment_algorithm (s1 s2 : List Char) (scr : Scoring) : Option Alignment :=
  match tracebackLoop s1 s2 scr (s1.length + s2.length) s1.length s2.length [] [] with
  | none => none
  | some st =>
      let p1 := drainLoop1 s1 st.i st.al1 st.al2
      let p2 := drainLoop2 s2 st.j p1.1 p1.2
      some ⟨p2.1, p2.2, fillMatrix s1 s2 scr⟩

/-- Remove every gap placeholder from an aligned string. -/
def removeGaps : List Char → List Char
  | [] => []
  | c :: t => if c = '-' then removeGaps t else c :: removeGaps t

/-- Modelled from the spec: the per-position classification used by the
score recomputation ("if both symbols are equal add match; else if
either symbol is the gap placeholder add gap; else add mismatch"). -/
def classifyCol (scr : Scoring) (p : Char × Char) : Int :=
  if p.1 = p.2 then scr.matchScore
  else if p.1 = '-' ∨ p.2 = '-' then scr.gap
  else scr.mismatch

/-- A column of a global alignment: a substitution column (two symbols),
a deletion column (a `seq1` symbol against a gap) or an insertion column
(a gap against a `seq2` symbol).  The constructor names follow the
`match`/`del`/`ins` locals of the fill loop. -/
inductive Col where
  | sub (a b : Char)
  | del (a : Char)
  | ins (b : Char)

/-- Score of one alignment column. -/
def colScore (scr : Scoring) : Col → Int
  | .sub a b => subScore scr a b
  | .del _ => scr.gap
  | .ins _ => scr.gap

/-- First row of an alignment: the `seq1` symbols it consumes. -/
def proj1 : List Col → List Char
  | [] => []
  | .sub a _ :: t => a :: proj1 t
  | .del a :: t => a :: proj1 t
  | .ins _ :: t => proj1 t

/-- Second row of an alignment: the `seq2` symbols it consumes. -/
def proj2 : List Col → List Char
  | [] => []
  | .sub _ b :: t => b :: proj2 t
  | .del _ :: t => proj2 t
  | .ins b :: t => b :: proj2 t

/-- Total score of an alignment. -/
def alignScore (scr : Scoring) : List Col → Int
  | [] => 0
  | c :: t => colScore scr c + alignScore scr t

/-- `cs` is a global alignment of `xs` against `ys`. -/
def IsAlignment (xs ys : List Char) (cs : List Col) : Prop :=
  proj1 cs = xs ∧ proj2 cs = ys

/-- Optimal score of aligning `[]` against a suffix: all gaps. -/
def nwNil (scr : Scoring) : List Char → Int
  | [] => 0
  | _ :: ys => nwNil scr ys + scr.gap

/-- Recursive analogue of `matvalRow` on lists instead of indices. -/
def nwRow (scr : Scoring) (prev : List Char → Int) (x : Char) : List Char → Int
  | [] => prev [] + scr.gap
  | y :: ys =>
      max (prev ys + subScore scr x y)
        (max (prev (y :: ys) + scr.gap) (nwRow scr prev x ys + scr.gap))

/-- The Needleman–Wunsch value of two (reversed-prefix) lists: the
recurrence of the fill loop, stated on lists so that optimality can be
proved by structural induction.  `matval` is proved equal to `nw` on
reversed prefixes below. -/
def nw (scr : Scoring) : List Char → List Char → Int
  | [] => nwNil scr
  | x :: xs => nwRow scr (nw scr xs) x

/-- No column of the pair of accumulated strings is a double gap. -/
def NoDoubleGap (a1 a2 : List Char) : Prop :=
  ∀ p ∈ a1.zip a2, ¬(p.1 = '-' ∧ p.2 = '-')

/-! ### Equation lemmas -/

theorem gapInit_eq (scr : Scoring) : ∀ k, gapInit scr k = (k : Int) * scr.gap := by
  intro k
  induction k with
  | zero => simp [gapInit]
  | succ k ih => rw [gapInit, ih]; push_cast; ring

theorem matval_zero (s1 s2 : List Char) (scr : Scoring) (j : Nat) :
    matval s1 s2 scr 0 j = gapInit scr j := rfl

theorem matval_succ_zero (s1 s2 : List Char) (scr : Scoring) (i : Nat) :
    matval s1 s2 scr (i + 1) 0 = matval s1 s2 scr i 0 + scr.gap := rfl

theorem matval_succ_succ (s1 s2 : List Char) (scr : Scoring) (i j : Nat) :
    matval s1 s2 scr (i + 1) (j + 1) =
      max (matval s1 s2 scr i j + subScore scr (s1.getD i ' ') (s2.getD j ' '))
        (max (matval s1 s2 scr i (j + 1) + scr.gap) (matval s1 s2 scr (i + 1) j + scr.gap)) := rfl

theorem nw_nil_nil (scr : Scoring) : nw scr [] [] = 0 := rfl

theorem nw_cons_nil (scr : Scoring) (x : Char) (xs : List Char) :
    nw scr (x :: xs) [] = nw scr xs [] + scr.gap := rfl

theorem nw_nil_cons (scr : Scoring) (y : Char) (ys : List Char) :
    nw scr [] (y :: ys) = nw scr [] ys + scr.gap := rfl

theorem nw_cons_cons (scr : Scoring) (x y : Char) (xs ys : List Char) :
    nw scr (x :: xs) (y :: ys) =
      max (nw scr xs ys + subScore scr x y)
        (max (nw scr xs (y :: ys) + scr.gap) (nw scr (x :: xs) ys + scr.gap)) := rfl

theorem tb_i_zero (s1 s2 : List Char) (scr : Scoring) (fuel j : Nat) (a1 a2 : List Char) :
    tracebackLoop s1 s2 scr fuel 0 j a1 a2 = some ⟨a1, a2, 0, j⟩ := by
  cases fuel <;> rfl

theorem tb_j_zero (s1 s2 : List Char) (scr : Scoring) (fuel i : Nat) (a1 a2 : List Char) :
    tracebackLoop s1 s2 scr fuel (i + 1) 0 a1 a2 = some ⟨a1, a2, i + 1, 0⟩ := by
  cases fuel <;> rfl

theorem tb_fuel_zero (s1 s2 : List Char) (scr : Scoring) (i j : Nat) (a1 a2 : List Char) :
    tracebackLoop s1 s2 scr 0 (i + 1) (j + 1) a1 a2 = none := rfl

theorem tb_step (s1 s2 : List Char) (scr : Scoring) (fuel i j : Nat) (a1 a2 : List Char) :
    tracebackLoop s1 s2 scr (fuel + 1) (i + 1) (j + 1) a1 a2 =
      (if s1.getD i ' ' = s2.getD j ' ' ∨
          (matval s1 s2 scr i j ≥ matval s1 s2 scr (i + 1) j ∧
           matval s1 s2 scr i j ≥ matval s1 s2 scr i (j + 1)) then
        tracebackLoop s1 s2 scr fuel i j (s1.getD i ' ' :: a1) (s2.getD j ' ' :: a2)
      else if matval s1 s2 scr i (j + 1) ≥ matval s1 s2 scr (i + 1) j ∧
          matval s1 s2 scr i (j + 1) ≥ matval s1 s2 scr i j then
        tracebackLoop s1 s2 scr fuel i (j + 1) (s1.getD i ' ' :: a1) ('-' :: a2)
      else if matval s1 s2 scr (i + 1) j ≥ matval s1 s2 scr i (j + 1) ∧
          matval s1 s2 scr (i + 1) j ≥ matval s1 s2 scr i j then
        tracebackLoop s1 s2 scr fuel (i + 1) j ('-' :: a1) (s2.getD j ' ' :: a2)
      else none) := rfl

/-! ### Small helpers -/

theorem max3_third (a b c : Int) (h1 : ¬(a ≥ b ∧ a ≥ c)) (h2 : ¬(c ≥ b ∧ c ≥ a)) :
    b ≥ c ∧ b ≥ a := by omega

theorem getD_mem_of_lt (l : List Char) (i : Nat) (h : i < l.length) : l.getD i ' ' ∈ l := by
  rw [List.getD_eq_getElem l ' ' h]; exact List.getElem_mem h

theorem drop_eq_getD_cons (l : List Char) (i : Nat) (h : i < l.length) :
    l.drop i = l.getD i ' ' :: l.drop (i + 1) := by
  rw [List.getD_eq_getElem l ' ' h]; exact List.drop_eq_getElem_cons h

theorem removeGaps_cons_ne {c : Char} (t : List Char) (h : c ≠ '-') :
    removeGaps (c :: t) = c :: removeGaps t := by
  simp [removeGaps, h]

theorem removeGaps_cons_gap (t : List Char) : removeGaps ('-' :: t) = removeGaps t := by
  simp [removeGaps]

theorem noDoubleGap_cons {c1 c2 : Char} {a1 a2 : List Char}
    (h : ¬(c1 = '-' ∧ c2 = '-')) (hh : NoDoubleGap a1 a2) :
    NoDoubleGap (c1 :: a1) (c2 :: a2) := by
  intro p hp
  rw [List.zip_cons_cons, List.mem_cons] at hp
  rcases hp with rfl | hp
  · exact h
  · exact hh p hp

/-! ### Totality of the traceback loop -/

theorem tracebackLoop_total (s1 s2 : List Char) (scr : Scoring) :
    ∀ fuel i j a1 a2, i + j ≤ fuel →
      ∃ st, tracebackLoop s1 s2 scr fuel i j a1 a2 = some st := by
  intro fuel
  induction fuel with
  | zero =>
      intro i j a1 a2 h
      have hi : i = 0 := by omega
      subst hi
      exact ⟨_, tb_i_zero s1 s2 scr 0 j a1 a2⟩
  | succ fuel ih =>
      intro i j a1 a2 h
      cases i with
      | zero => exact ⟨_, tb_i_zero s1 s2 scr (fuel + 1) j a1 a2⟩
      | succ i =>
          cases j with
          | zero => exact ⟨_, tb_j_zero s1 s2 scr (fuel + 1) i a1 a2⟩
          | succ j =>
              rw [tb_step]
              split_ifs with h1 h2 h3
              · exact ih i j _ _ (by omega)
              · exact ih i (j + 1) _ _ (by omega)
              · exact ih (i + 1) j _ _ (by omega)
              · exact absurd (max3_third _ _ _ (fun hc => h1 (Or.inr hc)) h2) h3

/-! ### Invariants of the traceback loop -/

theorem tracebackLoop_len (s1 s2 : List Char) (scr : Scoring) :
    ∀ fuel i j a1 a2 st, tracebackLoop s1 s2 scr fuel i j a1 a2 = some st →
      a1.length = a2.length →
      st.al1.length = st.al2.length ∧
      a1.length + i ≤ st.al1.length + st.i ∧
      a1.length + j ≤ st.al1.length + st.j := by
  intro fuel
  induction fuel with
  | zero =>
      intro i j a1 a2 st h hlen
      cases i with
      | zero =>
          rw [tb_i_zero] at h
          obtain rfl := Option.some.inj h
          exact ⟨hlen, Nat.le_refl _, Nat.le_refl _⟩
      | succ i =>
          cases j with
          | zero =>
              rw [tb_j_zero] at h
              obtain rfl := Option.some.inj h
              exact ⟨hlen, Nat.le_refl _, Nat.le_refl _⟩
          | succ j => rw [tb_fuel_zero] at h; exact absurd h (by simp)
  | succ fuel ih =>
      intro i j a1 a2 st h hlen
      cases i with
      | zero =>
          rw [tb_i_zero] at h
          obtain rfl := Option.some.inj h
          exact ⟨hlen, Nat.le_refl _, Nat.le_refl _⟩
      | succ i =>
          cases j with
          | zero =>
              rw [tb_j_zero] at h
              obtain rfl := Option.some.inj h
              exact ⟨hlen, Nat.le_refl _, Nat.le_refl _⟩
          | succ j =>
              rw [tb_step] at h
              split_ifs at h with h1 h2 h3
              · obtain ⟨e, le1, le2⟩ := ih _ _ _ _ _ h (by simp [hlen])
                simp only [List.length_cons] at le1 le2
                exact ⟨e, by omega, by omega⟩
              · obtain ⟨e, le1, le2⟩ := ih _ _ _ _ _ h (by simp [hlen])
                simp only [List.length_cons] at le1 le2
                exact ⟨e, by omega, by omega⟩
              · obtain ⟨e, le1, le2⟩ := ih _ _ _ _ _ h (by simp [hlen])
                simp only [List.length_cons] at le1 le2
                exact ⟨e, by omega, by omega⟩

theorem tracebackLoop_gapfree (s1 s2 : List Char) (scr : Scoring)
    (hg1 : '-' ∉ s1) (hg2 : '-' ∉ s2) :
    ∀ fuel i j a1 a2 st, tracebackLoop s1 s2 scr fuel i j a1 a2 = some st →
      i ≤ s1.length → j ≤ s2.length →
      removeGaps a1 = s1.drop i → removeGaps a2 = s2.drop j →
      removeGaps st.al1 = s1.drop st.i ∧ removeGaps st.al2 = s2.drop st.j ∧
      st.i ≤ i ∧ st.j ≤ j := by
  intro fuel
  induction fuel with
  | zero =>
      intro i j a1 a2 st h hi hj ha1 ha2
      cases i with
      | zero =>
          rw [tb_i_zero] at h
          obtain rfl := Option.some.inj h
          exact ⟨ha1, ha2, le_refl _, le_refl _⟩
      | succ i =>
          cases j with
          | zero =>
              rw [tb_j_zero] at h
              obtain rfl := Option.some.inj h
              exact ⟨ha1, ha2, le_refl _, le_refl _⟩
          | succ j => rw [tb_fuel_zero] at h; exact absurd h (by simp)
  | succ fuel ih =>
      intro i j a1 a2 st h hi hj ha1 ha2
      cases i with
      | zero =>
          rw [tb_i_zero] at h
          obtain rfl := Option.some.inj h
          exact ⟨ha1, ha2, le_refl _, le_refl _⟩
      | succ i =>
          cases j with
          | zero =>
              rw [tb_j_zero] at h
              obtain rfl := Option.some.inj h
              exact ⟨ha1, ha2, le_refl _, le_refl _⟩
          | succ j =>
              have hilt : i < s1.length := by omega
              have hjlt : j < s2.length := by omega
              have hcn1 : s1.getD i ' ' ≠ '-' :=
                fun he => hg1 (he ▸ getD_mem_of_lt s1 i hilt)
              have hcn2 : s2.getD j ' ' ≠ '-' :=
                fun he => hg2 (he ▸ getD_mem_of_lt s2 j hjlt)
              have hc1 : removeGaps (s1.getD i ' ' :: a1) = s1.drop i := by
                rw [removeGaps_cons_ne a1 hcn1, ha1, ← drop_eq_getD_cons s1 i hilt]
              have hc2 : removeGaps (s2.getD j ' ' :: a2) = s2.drop j := by
                rw [removeGaps_cons_ne a2 hcn2, ha2, ← drop_eq_getD_cons s2 j hjlt]
              rw [tb_step] at h
              split_ifs at h with h1 h2 h3
              · obtain ⟨e1, e2, b1, b2⟩ :=
                  ih _ _ _ _ _ h (by omega) (by omega) hc1 hc2
                exact ⟨e1, e2, by omega, by omega⟩
              · obtain ⟨e1, e2, b1, b2⟩ :=
                  ih _ _ _ _ _ h (by omega) hj hc1 (by rw [removeGaps_cons_gap, ha2])
                exact ⟨e1, e2, by omega, by omega⟩
              · obtain ⟨e1, e2, b1, b2⟩ :=
                  ih _ _ _ _ _ h hi (by omega) (by rw [removeGaps_cons_gap, ha1]) hc2
                exact ⟨e1, e2, by omega, by omega⟩

theorem tracebackLoop_ndg (s1 s2 : List Char) (scr : Scoring)
    (hg1 : '-' ∉ s1) (hg2 : '-' ∉ s2) :
    ∀ fuel i j a1 a2 st, tracebackLoop s1 s2 scr fuel i j a1 a2 = some st →
      i ≤ s1.length → j ≤ s2.length →
      NoDoubleGap a1 a2 →
      NoDoubleGap st.al1 st.al2 ∧ st.i ≤ i ∧ st.j ≤ j := by
  intro fuel
  induction fuel with
  | zero =>
      intro i j a1 a2 st h hi hj hnd
      cases i with
      | zero =>
          rw [tb_i_zero] at h
          obtain rfl := Option.some.inj h
          exact ⟨hnd, le_refl _, le_refl _⟩
      | succ i =>
          cases j with
          | zero =>
              rw [tb_j_zero] at h
              obtain rfl := Option.some.inj h
              exact ⟨hnd, le_refl _, le_refl _⟩
          | succ j => rw [tb_fuel_zero] at h; exact absurd h (by simp)
  | succ fuel ih =>
      intro i j a1 a2 st h hi hj hnd
      cases i with
      | zero =>
          rw [tb_i_zero] at h
          obtain rfl := Option.some.inj h
          exact ⟨hnd, le_refl _, le_refl _⟩
      | succ i =>
          cases j with
          | zero =>
              rw [tb_j_zero] at h
              obtain rfl := Option.some.inj h
              exact ⟨hnd, le_refl _, le_refl _⟩
          | succ j =>
              have hcn1 : s1.getD i ' ' ≠ '-' :=
                fun he => hg1 (he ▸ getD_mem_of_lt s1 i (by omega))
              have hcn2 : s2.getD j ' ' ≠ '-' :=
                fun he => hg2 (he ▸ getD_mem_of_lt s2 j (by omega))
              rw [tb_step] at h
              split_ifs at h with h1 h2 h3
              · obtain ⟨e, b1, b2⟩ :=
                  ih _ _ _ _ _ h (by omega) (by omega)
                    (noDoubleGap_cons (fun hp => hcn1 hp.1) hnd)
                exact ⟨e, by omega, by omega⟩
              · obtain ⟨e, b1, b2⟩ :=
                  ih _ _ _ _ _ h (by omega) hj
                    (noDoubleGap_cons (fun hp => hcn1 hp.1) hnd)
                exact ⟨e, by omega, by omega⟩
              · obtain ⟨e, b1, b2⟩ :=
                  ih _ _ _ _ _ h hi (by omega)
                    (noDoubleGap_cons (fun hp => hcn2 hp.2) hnd)
                exact ⟨e, by omega, by omega⟩

/-! ### The drain loops -/

theorem drainLoop1_len (s1 : List Char) : ∀ i a1 a2,
    (drainLoop1 s1 i a1 a2).1.length = a1.length + i ∧
    (drainLoop1 s1 i a1 a2).2.length = a2.length + i := by
  intro i
  induction i with
  | zero => intro a1 a2; simp [drainLoop1]
  | succ i ih =>
      intro a1 a2
      have := ih (s1.getD i ' ' :: a1) ('-' :: a2)
      simp only [List.length_cons] at this
      rw [drainLoop1]
      exact ⟨by omega, by omega⟩

theorem drainLoop2_len (s2 : List Char) : ∀ j a1 a2,
    (drainLoop2 s2 j a1 a2).1.length = a1.length + j ∧
    (drainLoop2 s2 j a1 a2).2.length = a2.length + j := by
  intro j
  induction j with
  | zero => intro a1 a2; simp [drainLoop2]
  | succ j ih =>
      intro a1 a2
      have := ih ('-' :: a1) (s2.getD j ' ' :: a2)
      simp only [List.length_cons] at this
      rw [drainLoop2]
      exact ⟨by omega, by omega⟩

theorem drainLoop1_gapfree (s1 : List Char) (hg1 : '-' ∉ s1) : ∀ i a1 a2,
    i ≤ s1.length → removeGaps a1 = s1.drop i →
    removeGaps (drainLoop1 s1 i a1 a2).1 = s1 ∧
    removeGaps (drainLoop1 s1 i a1 a2).2 = removeGaps a2 := by
  intro i
  induction i with
  | zero =>
      intro a1 a2 _ ha1
      rw [drainLoop1]
      exact ⟨by simpa using ha1, rfl⟩
  | succ i ih =>
      intro a1 a2 hi ha1
      have hilt : i < s1.length := by omega
      have hcn1 : s1.getD i ' ' ≠ '-' :=
        fun he => hg1 (he ▸ getD_mem_of_lt s1 i hilt)
      have hc1 : removeGaps (s1.getD i ' ' :: a1) = s1.drop i := by
        rw [removeGaps_cons_ne a1 hcn1, ha1, ← drop_eq_getD_cons s1 i hilt]
      rw [drainLoop1]
      obtain ⟨e1, e2⟩ := ih (s1.getD i ' ' :: a1) ('-' :: a2) (by omega) hc1
      rw [removeGaps_cons_gap] at e2
      exact ⟨e1, e2⟩

theorem drainLoop2_gapfree (s2 : List Char) (hg2 : '-' ∉ s2) : ∀ j a1 a2,
    j ≤ s2.length → removeGaps a2 = s2.drop j →
    removeGaps (drainLoop2 s2 j a1 a2).1 = removeGaps a1 ∧
    removeGaps (drainLoop2 s2 j a1 a2).2 = s2 := by
  intro j
  induction j with
  | zero =>
      intro a1 a2 _ ha2
      rw [drainLoop2]
      exact ⟨rfl, by simpa using ha2⟩
  | succ j ih =>
      intro a1 a2 hj ha2
      have hjlt : j < s2.length := by omega
      have hcn2 : s2.getD j ' ' ≠ '-' :=
        fun he => hg2 (he ▸ getD_mem_of_lt s2 j hjlt)
      have hc2 : removeGaps (s2.getD j ' ' :: a2) = s2.drop j := by
        rw [removeGaps_cons_ne a2 hcn2, ha2, ← drop_eq_getD_cons s2 j hjlt]
      rw [drainLoop2]
      obtain ⟨e1, e2⟩ := ih ('-' :: a1) (s2.getD j ' ' :: a2) (by omega) hc2
      rw [removeGaps_cons_gap] at e1
      exact ⟨e1, e2⟩

theorem drainLoop1_ndg (s1 : List Char) (hg1 : '-' ∉ s1) : ∀ i a1 a2,
    i ≤ s1.length → NoDoubleGap a1 a2 →
    NoDoubleGap (drainLoop1 s1 i a1 a2).1 (drainLoop1 s1 i a1 a2).2 := by
  intro i
  induction i with
  | zero => intro a1 a2 _ hnd; rw [drainLoop1]; exact hnd
  | succ i ih =>
      intro a1 a2 hi hnd
      have hcn1 : s1.getD i ' ' ≠ '-' :=
        fun he => hg1 (he ▸ getD_mem_of_lt s1 i (by omega))
      rw [drainLoop1]
      exact ih _ _ (by omega) (noDoubleGap_cons (fun hp => hcn1 hp.1) hnd)

theorem drainLoop2_ndg (s2 : List Char) (hg2 : '-' ∉ s2) : ∀ j a1 a2,
    j ≤ s2.length → NoDoubleGap a1 a2 →
    NoDoubleGap (drainLoop2 s2 j a1 a2).1 (drainLoop2 s2 j a1 a2).2 := by
  intro j
  induction j with
  | zero => intro a1 a2 _ hnd; rw [drainLoop2]; exact hnd
  | succ j ih =>
      intro a1 a2 hj hnd
      have hcn2 : s2.getD j ' ' ≠ '-' :=
        fun he => hg2 (he ▸ getD_mem_of_lt s2 j (by omega))
      rw [drainLoop2]
      exact ih _ _ (by omega) (noDoubleGap_cons (fun hp => hcn2 hp.2) hnd)

/-! ### Unfolding the top-level algorithm -/

theorem alignment_algorithm_some (s1 s2 : List Char) (scr : Scoring) (al : Alignment)
    (hal : alignment_algorithm s1 s2 scr = some al) :
    ∃ st, tracebackLoop s1 s2 scr (s1.length + s2.length) s1.length s2.length [] [] = some st ∧
      al = ⟨(drainLoop2 s2 st.j (drainLoop1 s1 st.i st.al1 st.al2).1
               (drainLoop1 s1 st.i st.al1 st.al2).2).1,
            (drainLoop2 s2 st.j (drainLoop1 s1 st.i st.al1 st.al2).1
               (drainLoop1 s1 st.i st.al1 st.al2).2).2,
            fillMatrix s1 s2 scr⟩ := by
  unfold alignment_algorithm at hal
  cases h : tracebackLoop s1 s2 scr (s1.length + s2.length) s1.length s2.length [] [] with
  | none => rw [h] at hal; exact absurd hal (by simp)
  | some st =>
      rw [h] at hal
      exact ⟨st, rfl, (Option.some.inj hal).symm⟩

theorem fillMatrix_getD (s1 s2 : List Char) (scr : Scoring) (i j : Nat)
    (hi : i ≤ s1.length) (hj : j ≤ s2.length) :
    ((fillMatrix s1 s2 scr).getD i []).getD j 0 = matval s1 s2 scr i j := by
  have h1 : (fillMatrix s1 s2 scr).getD i []
      = (List.range (s2.length + 1)).map (fun j => matval s1 s2 scr i j) := by
    unfold fillMatrix
    rw [List.getD_eq_getElem _ _ (by simp [Nat.lt_succ_iff, hi])]
    rw [List.getElem_map, List.getElem_range]
  rw [h1, List.getD_eq_getElem _ _ (by simp [Nat.lt_succ_iff, hj])]
  rw [List.getElem_map, List.getElem_range]

/-! ### Alignments are reversible -/

theorem proj1_append : ∀ l1 l2 : List Col, proj1 (l1 ++ l2) = proj1 l1 ++ proj1 l2 := by
  intro l1 l2
  induction l1 with
  | nil => rfl
  | cons c t ih => cases c <;> simp [proj1, ih]

theorem proj2_append : ∀ l1 l2 : List Col, proj2 (l1 ++ l2) = proj2 l1 ++ proj2 l2 := by
  intro l1 l2
  induction l1 with
  | nil => rfl
  | cons c t ih => cases c <;> simp [proj2, ih]

theorem alignScore_append (scr : Scoring) :
    ∀ l1 l2 : List Col, alignScore scr (l1 ++ l2) = alignScore scr l1 + alignScore scr l2 := by
  intro l1 l2
  induction l1 with
  | nil => simp [alignScore]
  | cons c t ih => simp [alignScore, ih]; ring

theorem proj1_reverse : ∀ l : List Col, proj1 l.reverse = (proj1 l).reverse := by
  intro l
  induction l with
  | nil => rfl
  | cons c t ih =>
      rw [List.reverse_cons, proj1_append, ih]
      cases c <;> simp [proj1]

theorem proj2_reverse : ∀ l : List Col, proj2 l.reverse = (proj2 l).reverse := by
  intro l
  induction l with
  | nil => rfl
  | cons c t ih =>
      rw [List.reverse_cons, proj2_append, ih]
      cases c <;> simp [proj2]

theorem alignScore_reverse (scr : Scoring) :
    ∀ l : List Col, alignScore scr l.reverse = alignScore scr l := by
  intro l
  induction l with
  | nil => rfl
  | cons c t ih =>
      rw [List.reverse_cons, alignScore_append, ih]
      simp [alignScore]
      ring

/-! ### The DP matrix computes the Needleman–Wunsch value -/

theorem take_succ_reverse (l : List Char) (i : Nat) (h : i < l.length) :
    (l.take (i + 1)).reverse = l.getD i ' ' :: (l.take i).reverse := by
  rw [List.getD_eq_getElem l ' ' h, ← List.take_concat_get' l i h, List.reverse_append]
  simp

theorem matval_eq_nw (s1 s2 : List Char) (scr : Scoring) :
    ∀ i, i ≤ s1.length → ∀ j, j ≤ s2.length →
      matval s1 s2 scr i j = nw scr ((s1.take i).reverse) ((s2.take j).reverse) := by
  intro i
  induction i with
  | zero =>
      intro _ j
      induction j with
      | zero => intro _; rfl
      | succ j ihj =>
          intro hj
          have hjlt : j < s2.length := hj
          have e := ihj (by omega)
          rw [matval_zero] at e
          rw [matval_zero, gapInit, take_succ_reverse s2 j hjlt]
          simp only [List.take_zero, List.reverse_nil] at e ⊢
          rw [nw_nil_cons, e]
  | succ i ihi =>
      intro hi j
      induction j with
      | zero =>
          intro _
          have hilt : i < s1.length := hi
          have e := ihi (by omega) 0 (by omega)
          simp only [List.take_zero, List.reverse_nil] at e ⊢
          rw [matval_succ_zero, take_succ_reverse s1 i hilt, nw_cons_nil, e]
      | succ j ihj =>
          intro hj
          have hilt : i < s1.length := hi
          have hjlt : j < s2.length := hj
          have e1 := ihi (by omega) j (by omega)
          have e2 := ihi (by omega) (j + 1) hj
          have e3 := ihj (by omega)
          rw [take_succ_reverse s2 j hjlt] at e2
          rw [take_succ_reverse s1 i hilt] at e3
          rw [matval_succ_succ, take_succ_reverse s1 i hilt, take_succ_reverse s2 j hjlt,
            nw_cons_cons, e1, e2, e3]

/-! ### Optimality of the Needleman–Wunsch value -/

theorem alignScore_le_nw (scr : Scoring) :
    ∀ cs xs ys, proj1 cs = xs → proj2 cs = ys → alignScore scr cs ≤ nw scr xs ys := by
  intro cs
  induction cs with
  | nil =>
      intro xs ys h1 h2
      simp only [proj1] at h1
      simp only [proj2] at h2
      subst h1; subst h2
      simp [alignScore, nw_nil_nil]
  | cons c t ih =>
      intro xs ys h1 h2
      cases c with
      | sub a b =>
          simp only [proj1] at h1
          simp only [proj2] at h2
          subst h1; subst h2
          rw [nw_cons_cons]
          have hle := ih (proj1 t) (proj2 t) rfl rfl
          simp only [alignScore, colScore]
          omega
      | del a =>
          simp only [proj1] at h1
          simp only [proj2] at h2
          subst h1; subst h2
          have hle := ih (proj1 t) (proj2 t) rfl rfl
          simp only [alignScore, colScore]
          cases hys : proj2 t with
          | nil =>
              rw [hys] at hle
              rw [nw_cons_nil]
              omega
          | cons y ys =>
              rw [hys] at hle
              rw [nw_cons_cons]
              omega
      | ins b =>
          simp only [proj1] at h1
          simp only [proj2] at h2
          subst h1; subst h2
          have hle := ih (proj1 t) (proj2 t) rfl rfl
          simp only [alignScore, colScore]
          cases hxs : proj1 t with
          | nil =>
              rw [hxs] at hle
              rw [nw_nil_cons]
              omega
          | cons x xs =>
              rw [hxs] at hle
              rw [nw_cons_cons]
              omega

theorem nw_realized (scr : Scoring) :
    ∀ xs ys, ∃ cs, proj1 cs = xs ∧ proj2 cs = ys ∧ alignScore scr cs = nw scr xs ys := by
  intro xs
  induction xs with
  | nil =>
      intro ys
      induction ys with
      | nil => exact ⟨[], rfl, rfl, rfl⟩
      | cons y ys ihy =>
          obtain ⟨cs, h1, h2, h3⟩ := ihy
          refine ⟨.ins y :: cs, by simp [proj1, h1], by simp [proj2, h2], ?_⟩
          simp only [alignScore, colScore, h3, nw_nil_cons]
          omega
  | cons x xs ihx =>
      intro ys
      induction ys with
      | nil =>
          obtain ⟨cs, h1, h2, h3⟩ := ihx []
          refine ⟨.del x :: cs, by simp [proj1, h1], by simpa [proj2] using h2, ?_⟩
          simp only [alignScore, colScore, h3, nw_cons_nil]
          omega
      | cons y ys ihy =>
          obtain ⟨csd, d1, d2, d3⟩ := ihx ys
          obtain ⟨csu, u1, u2, u3⟩ := ihx (y :: ys)
          obtain ⟨csi, i1, i2, i3⟩ := ihy
          rcases max_choice (nw scr xs ys + subScore scr x y)
            (max (nw scr xs (y :: ys) + scr.gap) (nw scr (x :: xs) ys + scr.gap)) with hm | hm
          · refine ⟨.sub x y :: csd, by simp [proj1, d1], by simp [proj2, d2], ?_⟩
            rw [nw_cons_cons, hm]
            simp only [alignScore, colScore, d3]
            omega
          · rcases max_choice (nw scr xs (y :: ys) + scr.gap)
              (nw scr (x :: xs) ys + scr.gap) with hm2 | hm2
            · refine ⟨.del x :: csu, by simp [proj1, u1], by simp [proj2, u2], ?_⟩
              rw [nw_cons_cons, hm, hm2]
              simp only [alignScore, colScore, u3]
              omega
            · refine ⟨.ins y :: csi, by simp [proj1, i1], by simp [proj2, i2], ?_⟩
              rw [nw_cons_cons, hm, hm2]
              simp only [alignScore, colScore, i3]
              omega

/-! ### Remaining helpers for the claim theorems -/

theorem genAM_cell (m n : Nat) (scr : Scoring) (i j : Nat) (hi : i ≤ m) (hj : j ≤ n) :
    ((generateAlignmentMatrix m n scr).getD i []).getD j 0 =
      if j = 0 then gapInit scr i else if i = 0 then gapInit scr j else 0 := by
  have h1 : (generateAlignmentMatrix m n scr).getD i []
      = (List.range (n + 1)).map (fun j =>
          if j = 0 then gapInit scr i else if i = 0 then gapInit scr j else 0) := by
    unfold generateAlignmentMatrix
    rw [List.getD_eq_getElem _ _ (by simp [Nat.lt_succ_iff, hi])]
    rw [List.getElem_map, List.getElem_range]
  rw [h1, List.getD_eq_getElem _ _ (by simp [Nat.lt_succ_iff, hj])]
  rw [List.getElem_map, List.getElem_range]

theorem calcGo_eq_classify (scr : Scoring) :
    ∀ a1 a2 : List Char, a1.length = a2.length →
      calcGo scr a1 a2 = ((a1.zip a2).map (classifyCol scr)).sum := by
  intro a1
  induction a1 with
  | nil =>
      intro a2 h
      have h2 : a2 = [] := by
        cases a2 with
        | nil => rfl
        | cons c t => simp at h
      subst h2
      rfl
  | cons c t ih =>
      intro a2 h
      cases a2 with
      | nil => simp at h
      | cons c2 t2 =>
          simp only [List.length_cons] at h
          have e : calcGo scr (c :: t) (c2 :: t2) =
              (if c = c2 then scr.matchScore
               else if c = '-' ∨ c2 = '-' then scr.gap
               else scr.mismatch) + calcGo scr t t2 := rfl
          rw [e, ih t2 (by omega), List.zip_cons_cons, List.map_cons, List.sum_cons]
          rfl

/-! ### The claims -/

/-- Claim C2: during traceback, whenever the two symbols at the cursor
are equal, the diagonal move is taken — both symbols are appended and
both indices decremented — with no condition whatsoever on the
neighbouring matrix scores; the pure-score comparisons only govern the
two gap moves, which sit behind the (failed) symbol-equality test. -/
theorem traceback_diagonal_on_equal_symbols (s1 s2 : List Char) (scr : Scoring)
    (fuel i j : Nat) (a1 a2 : List Char)
    (heq : s1.getD i ' ' = s2.getD j ' ') :
    tracebackLoop s1 s2 scr (fuel + 1) (i + 1) (j + 1) a1 a2 =
      tracebackLoop s1 s2 scr fuel i j (s1.getD i ' ' :: a1) (s2.getD j ' ' :: a2) := by
  rw [tb_step, if_pos (Or.inl heq)]

/-- Witness for C2, at a scoring schema where both gap neighbours
(score 10) strictly beat the diagonal neighbour (score 0): the equal
symbols still force the diagonal move. -/
theorem traceback_diagonal_on_equal_symbols_inst :
    ((['A'] : List Char).getD 0 ' ' = (['A'] : List Char).getD 0 ' ')
    ∧ tracebackLoop ['A'] ['A'] ⟨-5, -5, 10⟩ 2 1 1 [] [] =
        tracebackLoop ['A'] ['A'] ⟨-5, -5, 10⟩ 1 0 0 ['A'] ['A'] :=
  ⟨rfl, traceback_diagonal_on_equal_symbols ['A'] ['A'] ⟨-5, -5, 10⟩ 1 0 0 [] [] rfl⟩

/-- Claim C3: `calc_score` never reads the matrix field (first
conjunct), recomputes the score by the per-position classification
of the spec (second conjunct), and on the inputs `"A"` / `"G"` with the
default schema the recomputed score is `-1` while the matrix corner
`mat[1][1]` is `0` — the two notions of score genuinely diverge. -/
theorem score_recomputation_diverges :
    (∀ (a1 a2 : List Char) (M M2 : List (List Int)) (scr : Scoring),
        calc_score ⟨a1, a2, M⟩ scr = calc_score ⟨a1, a2, M2⟩ scr)
    ∧ (∀ (a1 a2 : List Char) (M : List (List Int)) (scr : Scoring),
        a1.length = a2.length →
        calc_score ⟨a1, a2, M⟩ scr = ((a1.zip a2).map (classifyCol scr)).sum)
    ∧ (alignment_algorithm ['A'] ['G'] default_scoring).map
        (fun al => (calc_score al default_scoring, (al.score.getD 1 []).getD 1 0))
        = some (-1, 0)
    ∧ (-1 : Int) ≠ 0 := by
  refine ⟨fun _ _ _ _ _ => rfl, ?_, by decide, by decide⟩
  intro a1 a2 M scr hlen
  exact calcGo_eq_classify scr a1 a2 hlen

/-- Witness for C3's conditional conjunct at a concrete equal-length
pair. -/
theorem score_recomputation_diverges_inst :
    ((['A', '-'] : List Char).length = (['A', 'C'] : List Char).length)
    ∧ calc_score ⟨['A', '-'], ['A', 'C'], []⟩ default_scoring =
        (((['A', '-'] : List Char).zip ['A', 'C']).map (classifyCol default_scoring)).sum :=
  ⟨rfl, score_recomputation_diverges.2.1 ['A', '-'] ['A', 'C'] [] default_scoring rfl⟩

/-- Claim C6: the matrix builder returns an `(m+1) × (n+1)` matrix with
`mat[0][0] = 0`, `mat[i][0] = i * gap` and `mat[0][j] = j * gap`. -/
theorem matrix_builder_boundary (m n : Nat) (scr : Scoring) :
    (generateAlignmentMatrix m n scr).length = m + 1
    ∧ (∀ i, i ≤ m → ((generateAlignmentMatrix m n scr).getD i []).length = n + 1)
    ∧ ((generateAlignmentMatrix m n scr).getD 0 []).getD 0 0 = 0
    ∧ (∀ i, 1 ≤ i → i ≤ m →
        ((generateAlignmentMatrix m n scr).getD i []).getD 0 0 = (i : Int) * scr.gap)
    ∧ (∀ j, 1 ≤ j → j ≤ n →
        ((generateAlignmentMatrix m n scr).getD 0 []).getD j 0 = (j : Int) * scr.gap) := by
  refine ⟨?_, ?_, ?_, ?_, ?_⟩
  · simp [generateAlignmentMatrix]
  · intro i hi
    unfold generateAlignmentMatrix
    rw [List.getD_eq_getElem _ _ (by simp [Nat.lt_succ_iff, hi]), List.getElem_map]
    simp
  · rw [genAM_cell m n scr 0 0 (by omega) (by omega)]
    simp [gapInit]
  · intro i h1 h2
    rw [genAM_cell m n scr i 0 h2 (by omega)]
    simp [gapInit_eq]
  · intro j h1 h2
    rw [genAM_cell m n scr 0 j (by omega) h2]
    have hj0 : ¬(j = 0) := by omega
    simp [hj0, gapInit_eq]

/-- Witness for C6 at `m = 2`, `n = 3`, default schema. -/
theorem matrix_builder_boundary_inst :
    (1 ≤ 2 ∧ 2 ≤ 2)
    ∧ ((generateAlignmentMatrix 2 3 default_scoring).getD 2 []).getD 0 0 =
        (2 : Int) * default_scoring.gap :=
  ⟨⟨by decide, by decide⟩,
    (matrix_builder_boundary 2 3 default_scoring).2.2.2.1 2 (by decide) (by decide)⟩

/-- Claim C7: the algorithm is total — on every pair of finite sequences
and every schema it returns a result (the traceback's fuel of `m + n`
never runs out and the dead state in which no branch fires is
unreachable) — and at every interior cursor at least one of the three
branch guards holds (the `if`/`else if` chain makes at most one fire,
so exactly one fires and `i + j` strictly decreases). -/
theorem alignment_total :
    (∀ (s1 s2 : List Char) (scr : Scoring), ∃ al, alignment_algorithm s1 s2 scr = some al)
    ∧ (∀ (s1 s2 : List Char) (scr : Scoring) (i j : Nat),
        (s1.getD i ' ' = s2.getD j ' ' ∨
          (matval s1 s2 scr i j ≥ matval s1 s2 scr (i + 1) j ∧
           matval s1 s2 scr i j ≥ matval s1 s2 scr i (j + 1)))
        ∨ (matval s1 s2 scr i (j + 1) ≥ matval s1 s2 scr (i + 1) j ∧
           matval s1 s2 scr i (j + 1) ≥ matval s1 s2 scr i j)
        ∨ (matval s1 s2 scr (i + 1) j ≥ matval s1 s2 scr i (j + 1) ∧
           matval s1 s2 scr (i + 1) j ≥ matval s1 s2 scr i j)) := by
  constructor
  · intro s1 s2 scr
    obtain ⟨st, hst⟩ := tracebackLoop_total s1 s2 scr (s1.length + s2.length)
      s1.length s2.length [] [] (le_refl _)
    unfold alignment_algorithm
    rw [hst]
    exact ⟨_, rfl⟩
  · intro s1 s2 scr i j
    have h3 : (matval s1 s2 scr i j ≥ matval s1 s2 scr (i + 1) j ∧
          matval s1 s2 scr i j ≥ matval s1 s2 scr i (j + 1))
        ∨ (matval s1 s2 scr i (j + 1) ≥ matval s1 s2 scr (i + 1) j ∧
           matval s1 s2 scr i (j + 1) ≥ matval s1 s2 scr i j)
        ∨ (matval s1 s2 scr (i + 1) j ≥ matval s1 s2 scr i (j + 1) ∧
           matval s1 s2 scr (i + 1) j ≥ matval s1 s2 scr i j) := by
      generalize matval s1 s2 scr i j = a
      generalize matval s1 s2 scr (i + 1) j = b
      generalize matval s1 s2 scr i (j + 1) = c
      omega
    rcases h3 with h | h | h
    · exact Or.inl (Or.inr h)
    · exact Or.inr (Or.inl h)
    · exact Or.inr (Or.inr h)

/-- Claim C8: aligning the empty sequence against `"ACGT"` under the
default schema yields `"----"` against `"ACGT"`, and `mat[0][4] = 0`. -/
theorem empty_first_sequence_scenario :
    (alignment_algorithm [] ['A', 'C', 'G', 'T'] default_scoring).map
      (fun al => (al.seq1, al.seq2, (al.score.getD 0 []).getD 4 0))
      = some (['-', '-', '-', '-'], ['A', 'C', 'G', 'T'], 0) := by decide

/-- Claim C9: the algorithm is a pure function of its inputs, so two
invocations on the same inputs return identical results (aligned
strings and matrix alike). -/
theorem alignment_deterministic : ∀ (s1 s2 : List Char) (scr : Scoring),
    alignment_algorithm s1 s2 scr = alignment_algorithm s1 s2 scr :=
  fun _ _ _ => rfl

/-- Claim C1: every cell `(i, j)` of the matrix carried by the alignment
result is the optimal global-alignment score of the length-`i` prefix
of `seq1` against the length-`j` prefix of `seq2`; in particular
(`i = m`, `j = n`) the corner is the optimal score of the full
sequences. -/
theorem matrix_cells_optimal (s1 s2 : List Char) (scr : Scoring) (al : Alignment)
    (hal : alignment_algorithm s1 s2 scr = some al) :
    ∀ i j, i ≤ s1.length → j ≤ s2.length →
      (∀ cs, IsAlignment (s1.take i) (s2.take j) cs →
          alignScore scr cs ≤ (al.score.getD i []).getD j 0)
      ∧ ∃ cs, IsAlignment (s1.take i) (s2.take j) cs ∧
          alignScore scr cs = (al.score.getD i []).getD j 0 := by
  obtain ⟨st, hst, hal2⟩ := alignment_algorithm_some s1 s2 scr al hal
  have hsc : al.score = fillMatrix s1 s2 scr := by rw [hal2]
  intro i j hi hj
  rw [hsc, fillMatrix_getD s1 s2 scr i j hi hj, matval_eq_nw s1 s2 scr i hi j hj]
  constructor
  · intro cs hcs
    have h := alignScore_le_nw scr cs.reverse ((s1.take i).reverse) ((s2.take j).reverse)
      (by rw [proj1_reverse, hcs.1]) (by rw [proj2_reverse, hcs.2])
    rwa [alignScore_reverse] at h
  · obtain ⟨cs, h1, h2, h3⟩ := nw_realized scr ((s1.take i).reverse) ((s2.take j).reverse)
    refine ⟨cs.reverse, ⟨?_, ?_⟩, ?_⟩
    · rw [proj1_reverse, h1, List.reverse_reverse]
    · rw [proj2_reverse, h2, List.reverse_reverse]
    · rw [alignScore_reverse, h3]

/-- Witness for C1 at the corner cell of aligning `"A"` against `"G"`
with the default schema. -/
theorem matrix_cells_optimal_inst :
    (alignment_algorithm ['A'] ['G'] default_scoring = some ⟨['A'], ['G'], [[0, 0], [0, 0]]⟩
      ∧ 1 ≤ (['A'] : List Char).length ∧ 1 ≤ (['G'] : List Char).length)
    ∧ ((∀ cs, IsAlignment ((['A'] : List Char).take 1) ((['G'] : List Char).take 1) cs →
          alignScore default_scoring cs ≤
            ((Alignment.score ⟨['A'], ['G'], [[0, 0], [0, 0]]⟩).getD 1 []).getD 1 0)
      ∧ ∃ cs, IsAlignment ((['A'] : List Char).take 1) ((['G'] : List Char).take 1) cs ∧
          alignScore default_scoring cs =
            ((Alignment.score ⟨['A'], ['G'], [[0, 0], [0, 0]]⟩).getD 1 []).getD 1 0) :=
  ⟨⟨by decide, by decide, by decide⟩,
    matrix_cells_optimal ['A'] ['G'] default_scoring ⟨['A'], ['G'], [[0, 0], [0, 0]]⟩
      (by decide) 1 1 (by decide) (by decide)⟩

/-- Counterexample to C4 as stated: with inputs that themselves contain
the gap placeholder, stripping gaps from the aligned output does not
reconstruct the input — aligning `"-"` against `"A"` returns aligned
`"-"`, which strips to the empty sequence, not to `"-"`. -/
theorem reconstruct_fails_on_gap_inputs :
    ¬ ∀ (s1 s2 : List Char) (scr : Scoring) (al : Alignment),
        alignment_algorithm s1 s2 scr = some al →
        removeGaps al.seq1 = s1 ∧ removeGaps al.seq2 = s2 := by
  intro h
  have h1 := (h ['-'] ['A'] default_scoring ⟨['-'], ['A'], [[0, 0], [0, 0]]⟩ (by decide)).1
  exact absurd h1 (by decide)

/-- Claim C4 (amended: inputs must not contain the gap placeholder
`'-'` themselves): removing every gap from the two aligned sequences
reconstructs the two inputs exactly, in order. -/
theorem aligned_gapfree_reconstructs (s1 s2 : List Char) (scr : Scoring) (al : Alignment)
    (hg1 : '-' ∉ s1) (hg2 : '-' ∉ s2)
    (hal : alignment_algorithm s1 s2 scr = some al) :
    removeGaps al.seq1 = s1 ∧ removeGaps al.seq2 = s2 := by
  obtain ⟨st, hst, hal2⟩ := alignment_algorithm_some s1 s2 scr al hal
  have hs1 : al.seq1 = (drainLoop2 s2 st.j (drainLoop1 s1 st.i st.al1 st.al2).1
      (drainLoop1 s1 st.i st.al1 st.al2).2).1 := by rw [hal2]
  have hs2 : al.seq2 = (drainLoop2 s2 st.j (drainLoop1 s1 st.i st.al1 st.al2).1
      (drainLoop1 s1 st.i st.al1 st.al2).2).2 := by rw [hal2]
  obtain ⟨e1, e2, b1, b2⟩ := tracebackLoop_gapfree s1 s2 scr hg1 hg2 _ _ _ _ _ _ hst
    (le_refl _) (le_refl _) (by simp [removeGaps]) (by simp [removeGaps])
  obtain ⟨f1, f2⟩ := drainLoop1_gapfree s1 hg1 st.i st.al1 st.al2 (by omega) e1
  obtain ⟨g1, g2⟩ := drainLoop2_gapfree s2 hg2 st.j
    (drainLoop1 s1 st.i st.al1 st.al2).1 (drainLoop1 s1 st.i st.al1 st.al2).2
    (by omega) (f2.trans e2)
  rw [hs1, hs2]
  exact ⟨g1.trans f1, g2⟩

/-- Witness for C4 (amended) on `"A"` against `"G"`. -/
theorem aligned_gapfree_reconstructs_inst :
    ('-' ∉ (['A'] : List Char) ∧ '-' ∉ (['G'] : List Char)
      ∧ alignment_algorithm ['A'] ['G'] default_scoring =
          some ⟨['A'], ['G'], [[0, 0], [0, 0]]⟩)
    ∧ (removeGaps (Alignment.seq1 ⟨['A'], ['G'], [[0, 0], [0, 0]]⟩) = ['A']
      ∧ removeGaps (Alignment.seq2 ⟨['A'], ['G'], [[0, 0], [0, 0]]⟩) = ['G']) :=
  ⟨⟨by decide, by decide, by decide⟩,
    aligned_gapfree_reconstructs ['A'] ['G'] default_scoring ⟨['A'], ['G'], [[0, 0], [0, 0]]⟩
      (by decide) (by decide) (by decide)⟩

/-- Claim C5: the two aligned sequences returned by the algorithm always
have equal length, and that common length is at least
`max (len seq1) (len seq2)`. -/
theorem aligned_lengths_ge_max (s1 s2 : List Char) (scr : Scoring) (al : Alignment)
    (hal : alignment_algorithm s1 s2 scr = some al) :
    al.seq1.length = al.seq2.length ∧ max s1.length s2.length ≤ al.seq1.length := by
  obtain ⟨st, hst, hal2⟩ := alignment_algorithm_some s1 s2 scr al hal
  have hs1 : al.seq1 = (drainLoop2 s2 st.j (drainLoop1 s1 st.i st.al1 st.al2).1
      (drainLoop1 s1 st.i st.al1 st.al2).2).1 := by rw [hal2]
  have hs2 : al.seq2 = (drainLoop2 s2 st.j (drainLoop1 s1 st.i st.al1 st.al2).1
      (drainLoop1 s1 st.i st.al1 st.al2).2).2 := by rw [hal2]
  obtain ⟨e, le1, le2⟩ := tracebackLoop_len s1 s2 scr _ _ _ _ _ _ hst rfl
  obtain ⟨d11, d12⟩ := drainLoop1_len s1 st.i st.al1 st.al2
  obtain ⟨d21, d22⟩ := drainLoop2_len s2 st.j
    (drainLoop1 s1 st.i st.al1 st.al2).1 (drainLoop1 s1 st.i st.al1 st.al2).2
  rw [hs1, hs2]
  simp only [List.length_nil] at le1 le2
  constructor
  · omega
  · omega

/-- Witness for C5 on `"A"` against `"G"`. -/
theorem aligned_lengths_ge_max_inst :
    (alignment_algorithm ['A'] ['G'] default_scoring = some ⟨['A'], ['G'], [[0, 0], [0, 0]]⟩)
    ∧ ((Alignment.seq1 ⟨['A'], ['G'], [[0, 0], [0, 0]]⟩).length =
          (Alignment.seq2 ⟨['A'], ['G'], [[0, 0], [0, 0]]⟩).length
      ∧ max (['A'] : List Char).length (['G'] : List Char).length ≤
          (Alignment.seq1 ⟨['A'], ['G'], [[0, 0], [0, 0]]⟩).length) :=
  ⟨by decide,
    aligned_lengths_ge_max ['A'] ['G'] default_scoring ⟨['A'], ['G'], [[0, 0], [0, 0]]⟩
      (by decide)⟩

/-- Counterexample to C10 as stated: aligning `"-"` against `"-"` takes
the diagonal branch on the equal symbols and produces an alignment
whose single position holds the gap placeholder in both sequences. -/
theorem double_gap_on_gap_inputs :
    ¬ ∀ (s1 s2 : List Char) (scr : Scoring) (al : Alignment),
        alignment_algorithm s1 s2 scr = some al →
        ∀ p ∈ al.seq1.zip al.seq2, ¬(p.1 = '-' ∧ p.2 = '-') := by
  intro h
  exact (h ['-'] ['-'] default_scoring ⟨['-'], ['-'], [[0, 0], [0, 1]]⟩ (by decide)
    ('-', '-') (by decide)) ⟨rfl, rfl⟩

/-- Claim C10 (amended: inputs must not contain the gap placeholder
`'-'` themselves): no position of the returned alignment carries the
gap placeholder in both sequences — every traceback and drain step
appends a gap to at most one of the two accumulated sequences. -/
theorem no_double_gap_column (s1 s2 : List Char) (scr : Scoring) (al : Alignment)
    (hg1 : '-' ∉ s1) (hg2 : '-' ∉ s2)
    (hal : alignment_algorithm s1 s2 scr = some al) :
    ∀ p ∈ al.seq1.zip al.seq2, ¬(p.1 = '-' ∧ p.2 = '-') := by
  obtain ⟨st, hst, hal2⟩ := alignment_algorithm_some s1 s2 scr al hal
  have hs1 : al.seq1 = (drainLoop2 s2 st.j (drainLoop1 s1 st.i st.al1 st.al2).1
      (drainLoop1 s1 st.i st.al1 st.al2).2).1 := by rw [hal2]
  have hs2 : al.seq2 = (drainLoop2 s2 st.j (drainLoop1 s1 st.i st.al1 st.al2).1
      (drainLoop1 s1 st.i st.al1 st.al2).2).2 := by rw [hal2]
  rw [hs1, hs2]
  have hnd0 : NoDoubleGap [] [] := by intro p hp; simp at hp
  obtain ⟨e, b1, b2⟩ := tracebackLoop_ndg s1 s2 scr hg1 hg2 _ _ _ _ _ _ hst
    (le_refl _) (le_refl _) hnd0
  have h1 := drainLoop1_ndg s1 hg1 st.i st.al1 st.al2 (by omega) e
  exact drainLoop2_ndg s2 hg2 st.j _ _ (by omega) h1

/-- Witness for C10 (amended) on `"A"` against `"G"`. -/
theorem no_double_gap_column_inst :
    ('-' ∉ (['A'] : List Char) ∧ '-' ∉ (['G'] : List Char)
      ∧ alignment_algorithm ['A'] ['G'] default_scoring =
          some ⟨['A'], ['G'], [[0, 0], [0, 0]]⟩)
    ∧ ∀ p ∈ (Alignment.seq1 ⟨['A'], ['G'], [[0, 0], [0, 0]]⟩).zip
          (Alignment.seq2 ⟨['A'], ['G'], [[0, 0], [0, 0]]⟩),
        ¬(p.1 = '-' ∧ p.2 = '-') :=
  ⟨⟨by decide, by decide, by decide⟩,
    no_double_gap_column ['A'] ['G'] default_scoring ⟨['A'], ['G'], [[0, 0], [0, 0]]⟩
      (by decide) (by decide) (by decide)⟩

end NW
